import Mathlib

/-!
# Verification of the CoAP option-header codec (`iot/options.py`)

Shallow embedding of the extended-field varint codec and the `Options`
container (decode/encode, mutation primitives, accessor views) from
`src/iot/options.py`, together with theorems settling the specification
claims. Python byte strings are modelled as `List Nat` (each element a
byte value), Python unbounded integers as `Int`, and raised exceptions as
`Except String` results carrying the exception's message.
-/

set_option autoImplicit false

namespace Iot

/-- Embedding of `readExtendedFieldValue(value, rawdata)`: decodes large
values of option delta and option length from raw binary form.
`rawdata[0]` on an empty sequence raises `IndexError`; `struct.unpack('!H', ...)`
on fewer than two bytes raises `struct.error`. -/
def readExtendedFieldValue (value : Int) (rawdata : List Nat) :
    Except String (Int × List Nat) :=
  if 0 ≤ value ∧ value < 13 then
    .ok (value, rawdata)
  else if value = 13 then
    match rawdata with
    | [] => .error "IndexError"
    | a :: rest => .ok (Int.ofNat a + 13, rest)
  else if value = 14 then
    match rawdata with
    | a :: b :: rest => .ok (Int.ofNat (a * 256 + b) + 269, rest)
    | _ => .error "struct.error"
  else
    .error "Value out of range."

/-- Embedding of `writeExtendedFieldValue(value)`: encodes large values
of option delta and option length into raw binary form.
`struct.pack('!B', v)` emits the single byte `v`; `struct.pack('!H', v)`
emits the two big-endian bytes of `v`. -/
def writeExtendedFieldValue (value : Int) : Except String (Int × List Nat) :=
  if 0 ≤ value ∧ value < 13 then
    .ok (value, [])
  else if 13 ≤ value ∧ value < 269 then
    .ok (13, [(value - 13).toNat])
  else if 269 ≤ value ∧ value < 65804 then
    .ok (14, [(value - 269).toNat / 256, (value - 269).toNat % 256])
  else
    .error "Value out of range."

end Iot

namespace Iot

/-- Round-trip core lemma: a successful encode yields a nibble in `0..14`
whose decode consumes exactly the produced extension bytes and returns the
original value. -/
theorem write_read_inverse (v : Int) (h0 : 0 ≤ v) (h1 : v ≤ 65803) :
    ∃ n e, writeExtendedFieldValue v = .ok (n, e) ∧ 0 ≤ n ∧ n ≤ 14 ∧
      ∀ rest, readExtendedFieldValue n (e ++ rest) = .ok (v, rest) := by
  by_cases hA : 0 ≤ v ∧ v < 13
  · refine ⟨v, [], ?_, h0, by omega, ?_⟩
    · unfold writeExtendedFieldValue
      rw [if_pos hA]
    · intro rest
      unfold readExtendedFieldValue
      rw [if_pos hA, List.nil_append]
  · by_cases hB : 13 ≤ v ∧ v < 269
    · refine ⟨13, [(v - 13).toNat], ?_, by omega, by omega, ?_⟩
      · unfold writeExtendedFieldValue
        rw [if_neg hA, if_pos hB]
      · intro rest
        norm_num [readExtendedFieldValue]
        omega
    · have hC : 269 ≤ v ∧ v < 65804 := by omega
      refine ⟨14, [(v - 269).toNat / 256, (v - 269).toNat % 256], ?_, by omega, by omega, ?_⟩
      · unfold writeExtendedFieldValue
        rw [if_neg hA, if_neg hB, if_pos hC]
      · intro rest
        norm_num [readExtendedFieldValue]
        omega

/-- C1: Varint round-trip — for every `v` in `0..65803`,
`writeExtendedFieldValue v` yields a nibble/extension pair whose decode,
applied to the extension bytes followed by any trailing bytes `rest`,
returns exactly `(v, rest)`. -/
theorem varint_roundtrip (v : Int) (rest : List Nat) (h0 : 0 ≤ v) (h1 : v ≤ 65803) :
    ∃ n e, writeExtendedFieldValue v = .ok (n, e) ∧
      readExtendedFieldValue n (e ++ rest) = .ok (v, rest) := by
  obtain ⟨n, e, hw, -, -, hr⟩ := write_read_inverse v h0 h1
  exact ⟨n, e, hw, hr rest⟩

/-- Witness for C1 at the concrete value 300 with trailing bytes `[7, 9]`. -/
theorem varint_roundtrip_witness :
    ∃ n e, writeExtendedFieldValue 300 = .ok (n, e) ∧
      readExtendedFieldValue n (e ++ [7, 9]) = .ok (300, [7, 9]) :=
  varint_roundtrip 300 [7, 9] (by decide) (by decide)

/-- C3: The encoder's tier selection matches the wire-format table: values
`0..12` are returned as the nibble itself with no extension bytes, values
`13..268` give nibble 13 with one extension byte `v - 13`, and values
`269..65803` give nibble 14 with the two big-endian bytes of `v - 269`. -/
theorem write_tier_table (v : Int) (h0 : 0 ≤ v) (h1 : v ≤ 65803) :
    writeExtendedFieldValue v =
      (if v ≤ 12 then .ok (v, [])
       else if v ≤ 268 then .ok (13, [(v - 13).toNat])
       else .ok (14, [(v - 269).toNat / 256, (v - 269).toNat % 256])) := by
  unfold writeExtendedFieldValue
  by_cases hA : v ≤ 12
  · rw [if_pos (by omega : 0 ≤ v ∧ v < 13), if_pos hA]
  · by_cases hB : v ≤ 268
    · rw [if_neg (by omega : ¬(0 ≤ v ∧ v < 13)), if_pos (by omega : 13 ≤ v ∧ v < 269),
        if_neg hA, if_pos hB]
    · rw [if_neg (by omega : ¬(0 ≤ v ∧ v < 13)), if_neg (by omega : ¬(13 ≤ v ∧ v < 269)),
        if_pos (by omega : 269 ≤ v ∧ v < 65804), if_neg hA, if_neg hB]

/-- Witness for C3 at the concrete tier-C value 300 (nibble 14, extension
bytes `31 / 0x1F`: `300 - 269 = 31`). -/
theorem write_tier_table_witness :
    writeExtendedFieldValue 300 =
      (if (300 : Int) ≤ 12 then .ok (300, [])
       else if (300 : Int) ≤ 268 then .ok (13, [((300 : Int) - 13).toNat])
       else .ok (14, [((300 : Int) - 269).toNat / 256, ((300 : Int) - 269).toNat % 256])) :=
  write_tier_table 300 (by decide) (by decide)

/-- C4: `writeExtendedFieldValue` fails with the out-of-range error for every
value `≥ 65804`, succeeds for every value in `0..65803`, and
`readExtendedFieldValue` fails with the out-of-range error for nibble 15;
the errors are ordinary `Except.error` results returned to the caller. -/
theorem varint_out_of_range (v w : Int) (l : List Nat)
    (hv : 65804 ≤ v) (hw0 : 0 ≤ w) (hw1 : w ≤ 65803) :
    writeExtendedFieldValue v = .error "Value out of range." ∧
      (∃ p, writeExtendedFieldValue w = .ok p) ∧
      readExtendedFieldValue 15 l = .error "Value out of range." := by
  refine ⟨?_, ?_, ?_⟩
  · unfold writeExtendedFieldValue
    rw [if_neg (by omega : ¬(0 ≤ v ∧ v < 13)), if_neg (by omega : ¬(13 ≤ v ∧ v < 269)),
      if_neg (by omega : ¬(269 ≤ v ∧ v < 65804))]
  · obtain ⟨n, e, hwr, -⟩ := write_read_inverse w hw0 hw1
    exact ⟨(n, e), hwr⟩
  · unfold readExtendedFieldValue
    rw [if_neg (by omega : ¬(0 ≤ (15 : Int) ∧ (15 : Int) < 13)),
      if_neg (by omega : ¬((15 : Int) = 13)), if_neg (by omega : ¬((15 : Int) = 14))]

/-- Witness for C4 at the concrete inputs 65804 (rejected), 0 (accepted)
and nibble 15 on an empty extension buffer. -/
theorem varint_out_of_range_witness :
    writeExtendedFieldValue 65804 = .error "Value out of range." ∧
      (∃ p, writeExtendedFieldValue 0 = .ok p) ∧
      readExtendedFieldValue 15 [] = .error "Value out of range." :=
  varint_out_of_range 65804 0 [] (by decide) (by decide) (by decide)

/-- C10: the decoder accepts one value the encoder rejects — nibble 14 with
extension bytes `0xFF 0xFF` decodes to 65804 without error, while encoding
65804 raises the out-of-range error, so decode's value range `0..65804`
strictly contains encode's accepted range `0..65803`. -/
theorem decode_exceeds_encode_range :
    (∀ rest, readExtendedFieldValue 14 (255 :: 255 :: rest) = .ok (65804, rest)) ∧
      writeExtendedFieldValue 65804 = .error "Value out of range." := by
  constructor
  · intro rest
    norm_num [readExtendedFieldValue]
  · unfold writeExtendedFieldValue
    rw [if_neg (by omega : ¬(0 ≤ (65804 : Int) ∧ (65804 : Int) < 13)),
      if_neg (by omega : ¬(13 ≤ (65804 : Int) ∧ (65804 : Int) < 269)),
      if_neg (by omega : ¬(269 ≤ (65804 : Int) ∧ (65804 : Int) < 65804))]

end Iot

namespace Iot

/-- Modelled from the spec: option instances are an external type consumed
opaquely (§3, §6) — an integer `number` plus the raw bytes the instance
encodes to. -/
structure OptionInstance where
  number : Int
  data : List Nat
  deriving DecidableEq, Repr

/-- Modelled from the spec: `OptionInstance.length` is the byte length of
the instance's encoding (§6). -/
def OptionInstance.length (o : OptionInstance) : Nat := o.data.length

/-- Modelled from the spec: `OptionInstance.encode()` returns the
instance's raw bytes (§6). -/
def OptionInstance.encode (o : OptionInstance) : List Nat := o.data

/-- Modelled from the spec: the factory `OptionNumber.create_option` builds
the typed instance for a number from raw bytes (§6); values are modelled
opaquely as the raw bytes the instance carries. -/
def createOption (number : Int) (raw : List Nat) : OptionInstance := ⟨number, raw⟩

/-- The `Options` container state: the `_options` dict, a mapping from
option number to the ordered list of instances stored under that number,
entries in key-insertion order (Python dicts preserve key insertion
order). -/
abbrev Options := List (Int × List OptionInstance)

/-- Embedding of `Options.addOption`:
`self._options.setdefault(option.number, []).append(option)` — append to
the matching key's list, or add a fresh key at the end of the dict. -/
def Options.addOption (o : Options) (x : OptionInstance) : Options :=
  match o with
  | [] => [(x.number, [x])]
  | (k, l) :: rest =>
    if k = x.number then (k, l ++ [x]) :: rest
    else (k, l) :: Options.addOption rest x

/-- Embedding of `Options.deleteOption`: `self._options.pop(number)` when
the key is present, a no-op otherwise. -/
def Options.deleteOption (o : Options) (number : Int) : Options :=
  match o with
  | [] => []
  | (k, l) :: rest =>
    if k = number then rest
    else (k, l) :: Options.deleteOption rest number

/-- Embedding of `Options.getOption`: `self._options.get(number, ())`. -/
def Options.getOption (o : Options) (number : Int) : List OptionInstance :=
  match o with
  | [] => []
  | (k, l) :: rest => if k = number then l else Options.getOption rest number

/-- The sort key used by `optionList`: `lambda x: x[0].number`, the number
of the first instance in a key's list. (Python raises `IndexError` on an
empty list; empty lists never occur in reachable containers, see
`Options.WF`, and we default to 0.) -/
def headNumber : List OptionInstance → Int
  | [] => 0
  | x :: _ => x.number

/-- Insert an element into a key-sorted list, in front of the first element
whose key is not smaller. -/
def insertSorted {α : Type} (key : α → Int) (x : α) : List α → List α
  | [] => [x]
  | y :: ys => if key x ≤ key y then x :: y :: ys else y :: insertSorted key x ys

/-- Stable sort by an integer key (insertion sort), modelling Python's
stable `sorted`. -/
def sortByKey {α : Type} (key : α → Int) : List α → List α
  | [] => []
  | x :: xs => insertSorted key x (sortByKey key xs)

/-- Embedding of `Options.optionList`:
`chain.from_iterable(sorted(self._options.values(), key=lambda x: x[0].number))` —
the per-key instance lists, stably sorted by their first instance's number,
flattened. -/
def Options.optionList (o : Options) : List OptionInstance :=
  (sortByKey headNumber (o.map (·.2))).flatten

/-- Embedding of the `for option in option_list` loop of `Options.encode`,
concatenating the emitted chunks: the packed delta/length byte
`((delta & 0x0F) << 4) + (length & 0x0F)` (both nibbles are in `0..14`, so
`& 0x0F` is `% 16` and `<< 4` is `* 16`), the extension bytes, and the
option's own encoding. -/
def Options.encodeLoop (currentOptNum : Int) : List OptionInstance → Except String (List Nat)
  | [] => .ok []
  | option :: rest =>
    match writeExtendedFieldValue (option.number - currentOptNum) with
    | .error e => .error e
    | .ok (delta, extendedDelta) =>
      match writeExtendedFieldValue (Int.ofNat option.length) with
      | .error e => .error e
      | .ok (length, extendedLength) =>
        match Options.encodeLoop option.number rest with
        | .error e => .error e
        | .ok tail =>
          .ok ((delta.toNat % 16 * 16 + length.toNat % 16) ::
            (extendedDelta ++ extendedLength ++ option.encode ++ tail))

/-- Embedding of `Options.encode`: walk `optionList()` starting from
`current_opt_num = 0` and join the emitted chunks. -/
def Options.encode (o : Options) : Except String (List Nat) :=
  Options.encodeLoop 0 o.optionList

/-- Each successful `readExtendedFieldValue` consumes 0, 1 or 2 bytes, so
its returned byte list is no longer than its input. -/
theorem read_length_le {v x : Int} {l l' : List Nat}
    (h : readExtendedFieldValue v l = .ok (x, l')) : l'.length ≤ l.length := by
  unfold readExtendedFieldValue at h
  split_ifs at h
  · cases h; exact Nat.le_refl _
  · cases l with
    | nil => cases h
    | cons a rest => cases h; simp
  · cases l with
    | nil => cases h
    | cons a t =>
      cases t with
      | nil => cases h
      | cons b rest => cases h; simp; omega

/-- Each byte returned by a successful `readExtendedFieldValue` was a byte
of its input. -/
theorem read_mem {v x : Int} {l l' : List Nat}
    (h : readExtendedFieldValue v l = .ok (x, l')) : ∀ a ∈ l', a ∈ l := by
  unfold readExtendedFieldValue at h
  split_ifs at h
  · cases h; intro a ha; exact ha
  · cases l with
    | nil => cases h
    | cons a rest => cases h; intro a ha; exact List.mem_cons_of_mem _ ha
  · cases l with
    | nil => cases h
    | cons a t =>
      cases t with
      | nil => cases h
      | cons b rest =>
        cases h
        intro a ha
        exact List.mem_cons_of_mem _ (List.mem_cons_of_mem _ ha)

/-- One iteration of the `while` loop body of `Options.decode`,
parameterized over the treatment `recur` of the remaining bytes: the first
byte `0xFF` stops the loop and returns the remaining bytes as the payload;
otherwise the byte's high nibble `(dllen & 0xF0) >> 4` (which is
`b / 16 % 16`) and low nibble `dllen & 0x0F` (which is `b % 16`) are
resolved through `readExtendedFieldValue`, `length` bytes are sliced off
as the new option's raw value, and the loop continues on the rest. -/
def decodeStep (recur : Options → Int → List Nat → Except String (Options × List Nat))
    (opts : Options) (optionNumber : Int) :
    List Nat → Except String (Options × List Nat)
  | [] => .ok (opts, [])
  | b :: rest =>
    if b = 255 then .ok (opts, rest)
    else
      match readExtendedFieldValue (Int.ofNat (b / 16 % 16)) rest with
      | .error e => .error e
      | .ok (delta, rest1) =>
        match readExtendedFieldValue (Int.ofNat (b % 16)) rest1 with
        | .error e => .error e
        | .ok (len, rest2) =>
          recur
            (Options.addOption opts (createOption (optionNumber + delta) (rest2.take len.toNat)))
            (optionNumber + delta) (rest2.drop len.toNat)

/-- The decode loop: iterate `decodeStep`. The loop consumes at least one
byte per iteration, so `rawdata.length` iterations always suffice; the
`Nat` argument is the embedding's structural termination device
(`Options.decode` passes `rawdata.length`, and `decodeLoop_fuel_sufficient`
shows the exhaustion branch is then unreachable and any larger bound gives
the same result). -/
def Options.decodeLoop : Nat → Options → Int → List Nat → Except String (Options × List Nat)
  | 0 => fun opts _ rawdata =>
      match rawdata with
      | [] => .ok (opts, [])
      | _ :: _ => .error "loop bound exhausted"
  | fuel + 1 => decodeStep (Options.decodeLoop fuel)

/-- Unfolding equation for a positive loop bound. -/
theorem decodeLoop_succ (fuel : Nat) :
    Options.decodeLoop (fuel + 1) = decodeStep (Options.decodeLoop fuel) := rfl

/-- Embedding of `Options.decode`: starts with `option_number = 0`, runs
the loop on the container state, and returns the new state together with
the payload returned to the caller. -/
def Options.decode (o : Options) (rawdata : List Nat) : Except String (Options × List Nat) :=
  Options.decodeLoop rawdata.length o 0 rawdata

/-- Embedding of `_single_value_view._setter`: delete all options stored
under the number, then, when the value is not `None`, add exactly one
instance created from the value. -/
def Options.singleValueSet (o : Options) (number : Int) (value : Option (List Nat)) : Options :=
  let o1 := o.deleteOption number
  match value with
  | none => o1
  | some v => o1.addOption (createOption number v)

/-- Embedding of `_single_value_view._deleter`: delete all options stored
under the number. -/
def Options.singleValueDelete (o : Options) (number : Int) : Options :=
  o.deleteOption number

/-- State-passing embedding of an `optionList()` method call: it reads
`self._options` and never assigns to it. -/
def Options.optionListS (o : Options) : List OptionInstance × Options :=
  (o.optionList, o)

/-- State-passing embedding of an `encode()` method call: the body reads
`self.optionList()` once and otherwise manipulates only the local `data`
list, so the state it leaves behind is the one `optionList` returned. -/
def Options.encodeS (o : Options) : Except String (List Nat) × Options :=
  (Options.encodeLoop 0 o.optionListS.1, o.optionListS.2)

end Iot

namespace Iot

/-- Any two sufficient loop bounds give the same decode result: the loop
consumes at least the header byte in each iteration, so any bound at least
the buffer length is enough. -/
theorem decodeLoop_fuel_sufficient (f₁ : Nat) :
    ∀ (f₂ : Nat) (o : Options) (c : Int) (raw : List Nat),
      raw.length ≤ f₁ → raw.length ≤ f₂ →
      Options.decodeLoop f₁ o c raw = Options.decodeLoop f₂ o c raw := by
  induction f₁ with
  | zero =>
    intro f₂ o c raw h1 h2
    have : raw = [] := List.eq_nil_of_length_eq_zero (Nat.le_zero.mp h1)
    subst this
    cases f₂ <;> rfl
  | succ g ih =>
    intro f₂ o c raw h1 h2
    cases raw with
    | nil => cases f₂ <;> rfl
    | cons b rest =>
      cases f₂ with
      | zero => simp at h2
      | succ g₂ =>
        rw [decodeLoop_succ, decodeLoop_succ]
        rw [decodeStep, decodeStep]
        by_cases hb : b = 255
        · simp [hb]
        · simp only [if_neg hb]
          cases hr1 : readExtendedFieldValue (Int.ofNat (b / 16 % 16)) rest with
          | error e => simp only [hr1]
          | ok p =>
            obtain ⟨delta, rest1⟩ := p
            simp only [hr1]
            cases hr2 : readExtendedFieldValue (Int.ofNat (b % 16)) rest1 with
            | error e => simp only [hr2]
            | ok q =>
              obtain ⟨len, rest2⟩ := q
              simp only [hr2]
              have e1 := read_length_le hr1
              have e2 := read_length_le hr2
              apply ih
              · simp only [List.length_drop]
                simp only [List.length_cons] at h1
                omega
              · simp only [List.length_drop]
                simp only [List.length_cons] at h2
                omega

/-- When no `0xFF` byte occurs in the remaining input, a successful run of
the decode loop returns an empty payload. -/
theorem decodeLoop_no_marker (fuel : Nat) :
    ∀ (o : Options) (c : Int) (raw : List Nat) (o' : Options) (p : List Nat),
      raw.length ≤ fuel → (∀ a ∈ raw, a ≠ 255) →
      Options.decodeLoop fuel o c raw = .ok (o', p) → p = [] := by
  induction fuel with
  | zero =>
    intro o c raw o' p h1 _ hres
    have : raw = [] := List.eq_nil_of_length_eq_zero (Nat.le_zero.mp h1)
    subst this
    cases hres
    rfl
  | succ g ih =>
    intro o c raw o' p h1 hmem hres
    cases raw with
    | nil => cases hres; rfl
    | cons b rest =>
      have hb : b ≠ 255 := hmem b (List.mem_cons_self b rest)
      rw [decodeLoop_succ, decodeStep, if_neg hb] at hres
      cases hr1 : readExtendedFieldValue (Int.ofNat (b / 16 % 16)) rest with
      | error e => simp only [hr1] at hres; exact Except.noConfusion hres
      | ok pr =>
        obtain ⟨delta, rest1⟩ := pr
        simp only [hr1] at hres
        cases hr2 : readExtendedFieldValue (Int.ofNat (b % 16)) rest1 with
        | error e => simp only [hr2] at hres; exact Except.noConfusion hres
        | ok q =>
          obtain ⟨len, rest2⟩ := q
          simp only [hr2] at hres
          have e1 := read_length_le hr1
          have e2 := read_length_le hr2
          refine ih _ _ _ _ _ ?_ ?_ hres
          · simp only [List.length_drop]
            simp only [List.length_cons] at h1
            omega
          · intro a ha
            refine hmem a (List.mem_cons_of_mem _ ?_)
            exact read_mem hr1 _ (read_mem hr2 _ (List.mem_of_mem_drop ha))

/-- C7: decode of the empty byte sequence returns the container unchanged
(in particular a fresh container stays empty) with an empty payload; a
successful decode of marker-free input returns an empty payload; and a
`0xFF` byte at an option boundary stops the loop at once, returning all
bytes after the marker as the payload. -/
theorem decode_payload_spec :
    (∀ o : Options, Options.decode o [] = .ok (o, [])) ∧
      Options.decode [] [] = .ok (([] : Options), []) ∧
      (∀ (fuel : Nat) (o : Options) (c : Int) (raw : List Nat) (o' : Options) (p : List Nat),
        raw.length ≤ fuel → (∀ a ∈ raw, a ≠ 255) →
        Options.decodeLoop fuel o c raw = .ok (o', p) → p = []) ∧
      (∀ (fuel : Nat) (o : Options) (c : Int) (rest : List Nat),
        Options.decodeLoop (fuel + 1) o c (255 :: rest) = .ok (o, rest)) ∧
      (∀ (o : Options) (rest : List Nat), Options.decode o (255 :: rest) = .ok (o, rest)) := by
  refine ⟨fun o => rfl, rfl, decodeLoop_no_marker, ?_, ?_⟩
  · intro fuel o c rest
    rw [decodeLoop_succ, decodeStep, if_pos rfl]
  · intro o rest
    show Options.decodeLoop (rest.length + 1) o 0 (255 :: rest) = .ok (o, rest)
    rw [decodeLoop_succ, decodeStep, if_pos rfl]

/-- Witness for C7's marker-free conjunct at the concrete input `[0x00]`
(one zero-length option numbered 0), which decodes successfully with empty
payload. -/
theorem decode_payload_spec_witness :
    ([] : List Nat) = [] ∧
      Options.decodeLoop 1 [] 0 [0] = .ok ([(0, [⟨0, []⟩])], []) :=
  ⟨decode_payload_spec.2.2.1 1 [] 0 [0] [(0, [⟨0, []⟩])] [] (by decide) (by decide) rfl,
    rfl⟩

/-- C5 counterexample: the header byte `0x03` declares a 3-byte option
value but only one byte `0xAA` remains; `decode` does not raise a
truncated-input error — it silently slices the single remaining byte and
returns success. -/
theorem decode_truncation_counterexample :
    Options.decode [] [3, 170] = .ok ([(0, [⟨0, [170]⟩])], []) := rfl

/-- C5 amended: when an option entry's resolved declared length exceeds
the remaining buffer — whatever tier the delta and length nibbles use,
expressed through the code's own `readExtendedFieldValue` resolutions —
the decode loop silently consumes the whole remainder as the option's raw
value (Python's `rawdata[:length]` slicing) and returns success with an
empty payload; no truncated-input error is raised. -/
theorem decode_truncated_slices_silently (fuel : Nat) (o : Options) (c : Int)
    (b : Nat) (rest rest1 rest2 : List Nat) (delta len : Int)
    (hb : ¬b = 255)
    (h1 : readExtendedFieldValue (Int.ofNat (b / 16 % 16)) rest = .ok (delta, rest1))
    (h2 : readExtendedFieldValue (Int.ofNat (b % 16)) rest1 = .ok (len, rest2))
    (hlen : rest2.length < len.toNat) :
    Options.decodeLoop (fuel + 1) o c (b :: rest) =
      .ok (o.addOption (createOption (c + delta) rest2), []) := by
  rw [decodeLoop_succ, decodeStep, if_neg hb]
  simp only [h1, h2]
  rw [List.take_of_length_le (by omega), List.drop_eq_nil_of_le (by omega)]
  cases fuel <;> rfl

/-- Witness for C5's amended theorem at the extended-length entry
`[0x0D, 0x00, 0xAA]`: the length nibble 13 resolves through one extension
byte to a declared length of 13, with a single byte remaining. -/
theorem decode_truncated_slices_silently_witness :
    Options.decodeLoop 1 [] 0 [13, 0, 170] =
      .ok (Options.addOption [] (createOption (0 + 0) [170]), []) :=
  decode_truncated_slices_silently 0 [] 0 13 [0, 170] [0, 170] [170] 0 13
    (by decide) rfl rfl (by decide)

theorem getOption_eq_nil_of_not_mem {o : Options} {n : Int}
    (h : n ∉ o.map (·.1)) : o.getOption n = [] := by
  induction o with
  | nil => rfl
  | cons e rest ih =>
    obtain ⟨k, l⟩ := e
    rw [List.map_cons, List.mem_cons] at h
    push_neg at h
    rw [Options.getOption, if_neg (fun hc => h.1 hc.symm)]
    exact ih h.2

/-- Effect of `deleteOption` on `getOption`, under the unique-keys
invariant Python's dict guarantees: the deleted number reads back empty,
every other number is untouched. -/
theorem getOption_deleteOption {o : Options} (hN : (o.map (·.1)).Nodup) (n k : Int) :
    (o.deleteOption n).getOption k = if k = n then [] else o.getOption k := by
  induction o with
  | nil => by_cases hk : k = n <;> simp [Options.deleteOption, Options.getOption, hk]
  | cons e rest ih =>
    obtain ⟨kk, l⟩ := e
    rw [List.map_cons, List.nodup_cons] at hN
    by_cases hkn : kk = n
    · rw [Options.deleteOption, if_pos hkn]
      by_cases hk : k = n
      · rw [if_pos hk]
        apply getOption_eq_nil_of_not_mem
        rw [hk, ← hkn]
        exact hN.1
      · rw [if_neg hk, Options.getOption, if_neg (fun hc => hk (by rw [← hc]; exact hkn))]
    · rw [Options.deleteOption, if_neg hkn]
      by_cases hkk : kk = k
      · have hkn2 : ¬k = n := fun hc => hkn (by rw [hkk, hc])
        rw [Options.getOption, if_pos hkk, if_neg hkn2, Options.getOption, if_pos hkk]
      · rw [Options.getOption, if_neg hkk, ih hN.2]
        by_cases hk : k = n
        · rw [if_pos hk, if_pos hk]
        · rw [if_neg hk, if_neg hk, Options.getOption, if_neg hkk]

/-- C8: for every container state (keys unique, as Python's dict
guarantees) and every option number, setting the single-value view to
`None` produces exactly the same container state as deleting the view —
identical `getOption` observations at every number — and both remove all
instances stored under that number (it reads back empty) while leaving
every other number's instances unchanged. -/
theorem single_value_none_eq_delete (o : Options) (number : Int)
    (hN : (o.map (·.1)).Nodup) :
    Options.singleValueSet o number none = Options.singleValueDelete o number ∧
      (∀ k, (Options.singleValueSet o number none).getOption k =
        (Options.singleValueDelete o number).getOption k) ∧
      (Options.singleValueSet o number none).getOption number = [] ∧
      (Options.singleValueDelete o number).getOption number = [] ∧
      ∀ k, ¬k = number →
        (Options.singleValueSet o number none).getOption k = o.getOption k ∧
        (Options.singleValueDelete o number).getOption k = o.getOption k := by
  refine ⟨rfl, fun _ => rfl, ?_, ?_, ?_⟩
  · show (o.deleteOption number).getOption number = []
    rw [getOption_deleteOption hN number number, if_pos rfl]
  · show (o.deleteOption number).getOption number = []
    rw [getOption_deleteOption hN number number, if_pos rfl]
  · intro k hk
    constructor
    · show (o.deleteOption number).getOption k = o.getOption k
      rw [getOption_deleteOption hN number k, if_neg hk]
    · show (o.deleteOption number).getOption k = o.getOption k
      rw [getOption_deleteOption hN number k, if_neg hk]

/-- Witness for C8 on a container holding numbers 5 and 9: setting 5's
view to `None` equals deleting it, number 5 reads back empty and number 9
is untouched. -/
theorem single_value_none_eq_delete_witness :
    Options.singleValueSet [(5, [⟨5, [1]⟩]), (9, [⟨9, [2]⟩])] 5 none =
        Options.singleValueDelete [(5, [⟨5, [1]⟩]), (9, [⟨9, [2]⟩])] 5 ∧
      Options.getOption
          (Options.singleValueSet [(5, [⟨5, [1]⟩]), (9, [⟨9, [2]⟩])] 5 none) 5 = [] ∧
      Options.getOption (Options.singleValueDelete [(5, [⟨5, [1]⟩]), (9, [⟨9, [2]⟩])] 5) 9 =
        Options.getOption [(5, [⟨5, [1]⟩]), (9, [⟨9, [2]⟩])] 9 :=
  ⟨(single_value_none_eq_delete [(5, [⟨5, [1]⟩]), (9, [⟨9, [2]⟩])] 5 (by decide)).1,
    (single_value_none_eq_delete [(5, [⟨5, [1]⟩]), (9, [⟨9, [2]⟩])] 5 (by decide)).2.2.1,
    ((single_value_none_eq_delete [(5, [⟨5, [1]⟩]), (9, [⟨9, [2]⟩])] 5
        (by decide)).2.2.2.2 9 (by decide)).2⟩

/-- C9: `encode()` is read-only on the container — the state-passing
embedding of the method call returns the container state unchanged, every
`getOption` observation and `optionList()` are untouched, and the bytes
produced agree with the pure `encode`. -/
theorem encode_readonly (o : Options) :
    o.encodeS.2 = o ∧ o.encodeS.1 = o.encode ∧
      (∀ k, o.encodeS.2.getOption k = o.getOption k) ∧
      o.encodeS.2.optionList = o.optionList :=
  ⟨rfl, rfl, fun _ => rfl, rfl⟩

end Iot

namespace Iot

theorem mem_insertSorted {α : Type} (key : α → Int) (x a : α) (l : List α) :
    a ∈ insertSorted key x l ↔ a = x ∨ a ∈ l := by
  induction l with
  | nil => simp [insertSorted]
  | cons y ys ih =>
    by_cases h : key x ≤ key y
    · simp [insertSorted, h]
    · simp only [insertSorted, if_neg h, List.mem_cons, ih]
      tauto

theorem insertSorted_perm {α : Type} (key : α → Int) (x : α) (l : List α) :
    (insertSorted key x l).Perm (x :: l) := by
  induction l with
  | nil => exact List.Perm.refl _
  | cons y ys ih =>
    by_cases h : key x ≤ key y
    · rw [insertSorted, if_pos h]
    · rw [insertSorted, if_neg h]
      exact (ih.cons y).trans (List.Perm.swap x y ys)

theorem sortByKey_perm {α : Type} (key : α → Int) (l : List α) :
    (sortByKey key l).Perm l := by
  induction l with
  | nil => exact List.Perm.refl _
  | cons x xs ih => exact (insertSorted_perm key x _).trans (ih.cons x)

theorem pairwise_insertSorted {α : Type} (key : α → Int) (x : α) (l : List α)
    (h : l.Pairwise (fun a b => key a ≤ key b)) :
    (insertSorted key x l).Pairwise (fun a b => key a ≤ key b) := by
  induction l with
  | nil => simp [insertSorted]
  | cons y ys ih =>
    rw [List.pairwise_cons] at h
    obtain ⟨hy, hys⟩ := h
    by_cases hxy : key x ≤ key y
    · rw [insertSorted, if_pos hxy]
      refine List.Pairwise.cons ?_ (List.Pairwise.cons hy hys)
      intro b hb
      rcases List.mem_cons.mp hb with rfl | hb'
      · exact hxy
      · exact le_trans hxy (hy b hb')
    · rw [insertSorted, if_neg hxy]
      refine List.Pairwise.cons ?_ (ih hys)
      intro b hb
      rcases (mem_insertSorted key x b ys).mp hb with rfl | hb'
      · omega
      · exact hy b hb'

theorem pairwise_sortByKey {α : Type} (key : α → Int) (l : List α) :
    (sortByKey key l).Pairwise (fun a b => key a ≤ key b) := by
  induction l with
  | nil => exact List.Pairwise.nil
  | cons x xs ih => exact pairwise_insertSorted key x _ ih

/-- Container well-formedness: every stored list is non-empty and holds
only instances whose number equals its key, and keys are unique — the
invariant Python's dict-of-lists maintains. -/
def Options.WF (o : Options) : Prop :=
  (∀ e ∈ o, e.2 ≠ [] ∧ ∀ x ∈ e.2, x.number = e.1) ∧ (o.map (·.1)).Nodup

/-- Container states reachable through the public interface: the fresh
empty container, mutation by `addOption` / `deleteOption` (the accessor
views are compositions of these), and states produced by a successful
`decode`. -/
inductive Options.Reachable : Options → Prop
  | empty : Options.Reachable []
  | add (o : Options) (x : OptionInstance) :
      Options.Reachable o → Options.Reachable (o.addOption x)
  | del (o : Options) (n : Int) :
      Options.Reachable o → Options.Reachable (o.deleteOption n)
  | dec (o : Options) (raw : List Nat) (o' : Options) (p : List Nat) :
      Options.Reachable o → Options.decode o raw = .ok (o', p) → Options.Reachable o'

theorem addOption_keys (o : Options) (x : OptionInstance) :
    (o.addOption x).map (·.1) =
      if x.number ∈ o.map (·.1) then o.map (·.1) else o.map (·.1) ++ [x.number] := by
  induction o with
  | nil => simp [Options.addOption]
  | cons e rest ih =>
    obtain ⟨k, l⟩ := e
    by_cases hk : k = x.number
    · subst hk
      simp [Options.addOption]
    · rw [Options.addOption, if_neg hk, List.map_cons, List.map_cons, ih]
      have hne : ¬x.number = k := fun hc => hk hc.symm
      by_cases hmem : x.number ∈ rest.map (·.1)
      · rw [if_pos hmem, if_pos (by simp [hmem])]
      · rw [if_neg hmem, if_neg (by simp [hne, hmem]), List.cons_append]

theorem addOption_entries (x : OptionInstance) :
    ∀ (o : Options), (∀ e ∈ o, e.2 ≠ [] ∧ ∀ y ∈ e.2, y.number = e.1) →
      ∀ e ∈ o.addOption x, e.2 ≠ [] ∧ ∀ y ∈ e.2, y.number = e.1 := by
  intro o
  induction o with
  | nil =>
    intro _ e he
    rw [Options.addOption, List.mem_singleton] at he
    subst he
    exact ⟨by simp, by simp⟩
  | cons f rest ih =>
    obtain ⟨k, l⟩ := f
    intro hall e he
    by_cases hk : k = x.number
    · rw [Options.addOption, if_pos hk, List.mem_cons] at he
      rcases he with rfl | he'
      · refine ⟨by simp, ?_⟩
        intro y hy
        rcases List.mem_append.mp hy with hy' | hy'
        · exact (hall (k, l) (List.mem_cons_self _ _)).2 y hy'
        · rw [List.mem_singleton] at hy'
          subst hy'
          exact hk.symm
      · exact hall e (List.mem_cons_of_mem _ he')
    · rw [Options.addOption, if_neg hk, List.mem_cons] at he
      rcases he with rfl | he'
      · exact hall (k, l) (List.mem_cons_self _ _)
      · exact ih (fun e' he'' => hall e' (List.mem_cons_of_mem _ he'')) e he'

theorem WF_addOption {o : Options} (x : OptionInstance) (h : Options.WF o) :
    Options.WF (o.addOption x) := by
  obtain ⟨h1, h2⟩ := h
  refine ⟨addOption_entries x o h1, ?_⟩
  rw [addOption_keys]
  by_cases hmem : x.number ∈ o.map (·.1)
  · rw [if_pos hmem]; exact h2
  · rw [if_neg hmem]
    simp [List.nodup_append, h2, hmem]

theorem deleteOption_sublist (o : Options) (n : Int) : (o.deleteOption n).Sublist o := by
  induction o with
  | nil => exact List.Sublist.refl _
  | cons e rest ih =>
    obtain ⟨k, l⟩ := e
    by_cases hk : k = n
    · rw [Options.deleteOption, if_pos hk]
      exact (List.Sublist.refl rest).cons (k, l)
    · rw [Options.deleteOption, if_neg hk]
      exact ih.cons₂ (k, l)

theorem WF_deleteOption {o : Options} (n : Int) (h : Options.WF o) :
    Options.WF (o.deleteOption n) := by
  obtain ⟨h1, h2⟩ := h
  have hs := deleteOption_sublist o n
  exact ⟨fun e he => h1 e (hs.subset he), ((hs.map (·.1)).nodup h2)⟩

theorem WF_decodeLoop (fuel : Nat) :
    ∀ (o : Options) (c : Int) (raw : List Nat) (o' : Options) (p : List Nat),
      Options.WF o → Options.decodeLoop fuel o c raw = .ok (o', p) → Options.WF o' := by
  induction fuel with
  | zero =>
    intro o c raw o' p hwf hres
    cases raw with
    | nil => cases hres; exact hwf
    | cons b rest => exact Except.noConfusion hres
  | succ g ih =>
    intro o c raw o' p hwf hres
    cases raw with
    | nil => cases hres; exact hwf
    | cons b rest =>
      rw [decodeLoop_succ, decodeStep] at hres
      by_cases hb : b = 255
      · rw [if_pos hb] at hres
        cases hres
        exact hwf
      · rw [if_neg hb] at hres
        cases hr1 : readExtendedFieldValue (Int.ofNat (b / 16 % 16)) rest with
        | error e => simp only [hr1] at hres; exact Except.noConfusion hres
        | ok pr =>
          obtain ⟨delta, rest1⟩ := pr
          simp only [hr1] at hres
          cases hr2 : readExtendedFieldValue (Int.ofNat (b % 16)) rest1 with
          | error e => simp only [hr2] at hres; exact Except.noConfusion hres
          | ok q =>
            obtain ⟨len, rest2⟩ := q
            simp only [hr2] at hres
            exact ih _ _ _ _ _ (WF_addOption _ hwf) hres

theorem Reachable_WF {o : Options} (h : Options.Reachable o) : Options.WF o := by
  induction h with
  | empty => exact ⟨by simp, List.nodup_nil⟩
  | add o x _ ih => exact WF_addOption x ih
  | del o n _ ih => exact WF_deleteOption n ih
  | dec o raw o' p _ hdec ih => exact WF_decodeLoop _ _ _ _ _ _ ih hdec

end Iot

namespace Iot

/-- First stored list whose head instance carries the given number (under
`Options.WF` there is at most one). -/
def lookupList (k : Int) : List (List OptionInstance) → List OptionInstance
  | [] => []
  | l :: rest => if headNumber l = k then l else lookupList k rest

theorem filter_eq_nil_of_nums_ne {k : Int} (ls : List (List OptionInstance))
    (h : ∀ l ∈ ls, ∀ x ∈ l, x.number ≠ k) :
    ls.flatten.filter (fun x => decide (x.number = k)) = [] := by
  rw [List.filter_eq_nil_iff]
  intro a ha
  rw [List.mem_flatten] at ha
  obtain ⟨l, hl, hal⟩ := ha
  simp only [decide_eq_true_eq]
  exact h l hl a hal

theorem filter_flatten_eq_lookupList {k : Int} (ls : List (List OptionInstance))
    (hU : ∀ l ∈ ls, ∀ x ∈ l, x.number = headNumber l)
    (hN : (ls.map headNumber).Nodup) :
    ls.flatten.filter (fun x => decide (x.number = k)) = lookupList k ls := by
  induction ls with
  | nil => rfl
  | cons l rest ih =>
    rw [List.flatten_cons, List.filter_append, lookupList]
    rw [List.map_cons, List.nodup_cons] at hN
    by_cases hk : headNumber l = k
    · rw [if_pos hk]
      have hfl : l.filter (fun x => decide (x.number = k)) = l := by
        rw [List.filter_eq_self]
        intro a ha
        simp only [decide_eq_true_eq]
        rw [hU l (List.mem_cons_self _ _) a ha, hk]
      have hrest : rest.flatten.filter (fun x => decide (x.number = k)) = [] := by
        apply filter_eq_nil_of_nums_ne
        intro l' hl' x hx
        rw [hU l' (List.mem_cons_of_mem _ hl') x hx]
        intro hcon
        exact hN.1 (by rw [hk, ← hcon] at hN ⊢; exact List.mem_map_of_mem headNumber hl')
      rw [hfl, hrest, List.append_nil]
    · rw [if_neg hk]
      have hfl : l.filter (fun x => decide (x.number = k)) = [] := by
        rw [List.filter_eq_nil_iff]
        intro a ha
        simp only [decide_eq_true_eq]
        rw [hU l (List.mem_cons_self _ _) a ha]
        exact hk
      rw [hfl, List.nil_append]
      exact ih (fun l' hl' => hU l' (List.mem_cons_of_mem _ hl')) hN.2

theorem lookupList_eq_of_mem {k : Int} {ls : List (List OptionInstance)}
    {l : List OptionInstance}
    (hN : (ls.map headNumber).Nodup) (hl : l ∈ ls) (hk : headNumber l = k) :
    lookupList k ls = l := by
  induction ls with
  | nil => cases hl
  | cons f rest ih =>
    rw [List.map_cons, List.nodup_cons] at hN
    rw [lookupList]
    rcases List.mem_cons.mp hl with rfl | hl'
    · rw [if_pos hk]
    · by_cases hf : headNumber f = k
      · exact absurd (by rw [hf, ← hk]; exact List.mem_map_of_mem headNumber hl') hN.1
      · rw [if_neg hf]
        exact ih hN.2 hl'

theorem lookupList_eq_nil {k : Int} {ls : List (List OptionInstance)}
    (h : ∀ l ∈ ls, headNumber l ≠ k) : lookupList k ls = [] := by
  induction ls with
  | nil => rfl
  | cons f rest ih =>
    rw [lookupList, if_neg (h f (List.mem_cons_self _ _))]
    exact ih fun l hl => h l (List.mem_cons_of_mem _ hl)

theorem lookupList_perm {k : Int} {ls ls' : List (List OptionInstance)}
    (hp : ls.Perm ls') (hN : (ls.map headNumber).Nodup) :
    lookupList k ls = lookupList k ls' := by
  have hN' : (ls'.map headNumber).Nodup := (hp.map headNumber).nodup_iff.mp hN
  by_cases hex : ∃ l ∈ ls, headNumber l = k
  · obtain ⟨l, hl, hk⟩ := hex
    rw [lookupList_eq_of_mem hN hl hk, lookupList_eq_of_mem hN' (hp.subset hl) hk]
  · push_neg at hex
    rw [lookupList_eq_nil hex, lookupList_eq_nil fun l hl => hex l (hp.symm.subset hl)]

theorem headNumber_entry {o : Options}
    (h1 : ∀ e ∈ o, e.2 ≠ [] ∧ ∀ x ∈ e.2, x.number = e.1)
    {e : Int × List OptionInstance} (he : e ∈ o) : headNumber e.2 = e.1 := by
  obtain ⟨hne, hnum⟩ := h1 e he
  cases hl : e.2 with
  | nil => exact absurd hl hne
  | cons y ys =>
    rw [headNumber]
    exact hnum y (by rw [hl]; exact List.mem_cons_self _ _)

theorem uniform_of_WF {o : Options}
    (h1 : ∀ e ∈ o, e.2 ≠ [] ∧ ∀ x ∈ e.2, x.number = e.1) :
    ∀ l ∈ o.map (·.2), ∀ x ∈ l, x.number = headNumber l := by
  intro l hl x hx
  obtain ⟨e, he, rfl⟩ := List.mem_map.mp hl
  rw [headNumber_entry h1 he]
  exact (h1 e he).2 x hx

theorem keys_of_heads {o : Options}
    (h1 : ∀ e ∈ o, e.2 ≠ [] ∧ ∀ x ∈ e.2, x.number = e.1) :
    (o.map (·.2)).map headNumber = o.map (·.1) := by
  rw [List.map_map]
  exact List.map_congr_left fun e he => headNumber_entry h1 he

theorem getOption_eq_lookupList {o : Options}
    (h1 : ∀ e ∈ o, e.2 ≠ [] ∧ ∀ x ∈ e.2, x.number = e.1) (k : Int) :
    o.getOption k = lookupList k (o.map (·.2)) := by
  induction o with
  | nil => rfl
  | cons e rest ih =>
    obtain ⟨kk, l⟩ := e
    have hhead : headNumber l = kk := headNumber_entry h1 (List.mem_cons_self _ _)
    rw [Options.getOption, List.map_cons, lookupList, hhead]
    by_cases hk : kk = k
    · rw [if_pos hk, if_pos hk]
    · rw [if_neg hk, if_neg hk]
      exact ih fun e' he' => h1 e' (List.mem_cons_of_mem _ he')

theorem pairwise_flatten_of_uniform (ls : List (List OptionInstance))
    (hp : ls.Pairwise (fun a b => headNumber a ≤ headNumber b))
    (hU : ∀ l ∈ ls, ∀ x ∈ l, x.number = headNumber l) :
    ls.flatten.Pairwise (fun a b => a.number ≤ b.number) := by
  induction ls with
  | nil => exact List.Pairwise.nil
  | cons l rest ih =>
    rw [List.pairwise_cons] at hp
    rw [List.flatten_cons, List.pairwise_append]
    refine ⟨?_, ih hp.2 (fun l' hl' => hU l' (List.mem_cons_of_mem _ hl')), ?_⟩
    · apply List.pairwise_of_forall_mem_list
      intro a ha b hb
      rw [hU l (List.mem_cons_self _ _) a ha, hU l (List.mem_cons_self _ _) b hb]
    · intro a ha b hb
      rw [List.mem_flatten] at hb
      obtain ⟨l', hl', hbl'⟩ := hb
      rw [hU l (List.mem_cons_self _ _) a ha,
        hU l' (List.mem_cons_of_mem _ hl') b hbl']
      exact hp.1 l' hl'

theorem optionList_pairwise {o : Options} (h : Options.WF o) :
    (o.optionList).Pairwise (fun a b => a.number ≤ b.number) := by
  obtain ⟨h1, _⟩ := h
  apply pairwise_flatten_of_uniform
  · exact pairwise_sortByKey headNumber _
  · intro l hl x hx
    exact uniform_of_WF h1 l ((sortByKey_perm headNumber _).subset hl) x hx

theorem filter_optionList {o : Options} (h : Options.WF o) (k : Int) :
    (o.optionList).filter (fun x => decide (x.number = k)) = o.getOption k := by
  obtain ⟨h1, h2⟩ := h
  have hN : ((o.map (·.2)).map headNumber).Nodup := by
    rw [keys_of_heads h1]; exact h2
  have hperm := sortByKey_perm headNumber (o.map (·.2))
  have hU' : ∀ l ∈ sortByKey headNumber (o.map (·.2)), ∀ x ∈ l, x.number = headNumber l :=
    fun l hl => uniform_of_WF h1 l (hperm.subset hl)
  have hN' : ((sortByKey headNumber (o.map (·.2))).map headNumber).Nodup :=
    (hperm.map headNumber).nodup_iff.mpr hN
  rw [Options.optionList, filter_flatten_eq_lookupList _ hU' hN',
    lookupList_perm hperm hN', getOption_eq_lookupList h1 k]

/-- C6: for every reachable container state, `optionList()` yields the
stored instances ordered by ascending option number (strictly across
different numbers, since keys are unique), and for every number `k` the
subsequence of yielded instances numbered `k` is exactly the stored list
for `k` — all instances appear, in their insertion order. -/
theorem optionList_ordered (o : Options) (h : Options.Reachable o) :
    (o.optionList).Pairwise (fun a b => a.number ≤ b.number) ∧
      ∀ k, (o.optionList).filter (fun x => decide (x.number = k)) = o.getOption k :=
  ⟨optionList_pairwise (Reachable_WF h), fun k => filter_optionList (Reachable_WF h) k⟩

/-- Witness for C6 on the container built by adding number 11 then
number 5 to a fresh container. -/
theorem optionList_ordered_witness :
    ((Options.addOption (Options.addOption [] ⟨11, [1]⟩) ⟨5, []⟩).optionList).Pairwise
        (fun a b => a.number ≤ b.number) ∧
      ((Options.addOption (Options.addOption [] ⟨11, [1]⟩) ⟨5, []⟩).optionList).filter
          (fun x => decide (x.number = 11)) =
        (Options.addOption (Options.addOption [] ⟨11, [1]⟩) ⟨5, []⟩).getOption 11 :=
  ⟨(optionList_ordered _ (.add _ _ (.add _ _ .empty))).1,
    (optionList_ordered _ (.add _ _ (.add _ _ .empty))).2 11⟩

end Iot

namespace Iot

theorem getOption_addOption (o : Options) (x : OptionInstance) (k : Int) :
    (o.addOption x).getOption k =
      o.getOption k ++ (if x.number = k then [x] else []) := by
  induction o with
  | nil =>
    by_cases hk : x.number = k <;>
      simp [Options.addOption, Options.getOption, hk]
  | cons e rest ih =>
    obtain ⟨kk, l⟩ := e
    by_cases hxk : kk = x.number
    · rw [Options.addOption, if_pos hxk]
      by_cases hk : kk = k
      · rw [Options.getOption, if_pos hk, Options.getOption, if_pos hk,
          if_pos (by rw [← hxk]; exact hk : x.number = k)]
      · rw [Options.getOption, if_neg hk, Options.getOption, if_neg hk,
          if_neg (fun hc => hk (by rw [hxk]; exact hc)), List.append_nil]
    · rw [Options.addOption, if_neg hxk]
      by_cases hk : kk = k
      · rw [Options.getOption, if_pos hk, Options.getOption, if_pos hk,
          if_neg (fun hc => hxk (by rw [hk]; exact hc.symm)), List.append_nil]
      · rw [Options.getOption, if_neg hk, Options.getOption, if_neg hk, ih]

theorem getOption_foldl_addOption (l : List OptionInstance) :
    ∀ (o0 : Options) (k : Int),
      (l.foldl Options.addOption o0).getOption k =
        o0.getOption k ++ l.filter (fun x => decide (x.number = k)) := by
  induction l with
  | nil => intro o0 k; simp
  | cons x xs ih =>
    intro o0 k
    rw [List.foldl_cons, ih, getOption_addOption]
    by_cases hk : x.number = k
    · rw [if_pos hk, List.filter_cons_of_pos (by simp [hk]), List.append_assoc,
        List.singleton_append]
    · rw [if_neg hk, List.filter_cons_of_neg (by simp [hk]), List.append_nil]

theorem WF_foldl_addOption (l : List OptionInstance) :
    ∀ (o0 : Options), Options.WF o0 → Options.WF (l.foldl Options.addOption o0) := by
  induction l with
  | nil => intro o0 h; exact h
  | cons x xs ih => intro o0 h; exact ih _ (WF_addOption x h)

/-- Two lists sorted by option number whose per-number subsequences agree
are equal (uniqueness of a stable sort). -/
theorem eq_of_sorted_filter_eq (l₁ : List OptionInstance) :
    ∀ (l₂ : List OptionInstance),
      l₁.Pairwise (fun a b => a.number ≤ b.number) →
      l₂.Pairwise (fun a b => a.number ≤ b.number) →
      (∀ k, l₁.filter (fun x => decide (x.number = k)) =
        l₂.filter (fun x => decide (x.number = k))) →
      l₁ = l₂ := by
  induction l₁ with
  | nil =>
    intro l₂ _ _ hf
    cases l₂ with
    | nil => rfl
    | cons b t₂ =>
      have h := hf b.number
      rw [List.filter_nil, List.filter_cons_of_pos (by simp)] at h
      exact List.noConfusion h
  | cons a t₁ ih =>
    intro l₂ h₁ h₂ hf
    cases l₂ with
    | nil =>
      have h := hf a.number
      rw [List.filter_cons_of_pos (by simp), List.filter_nil] at h
      exact List.noConfusion h
    | cons b t₂ =>
      rw [List.pairwise_cons] at h₁ h₂
      have hab : a.number = b.number := by
        by_contra hne
        have hA := hf a.number
        rw [List.filter_cons_of_pos (by simp),
          List.filter_cons_of_neg (by simp; exact fun hc => hne hc.symm)] at hA
        have haT2 : a ∈ t₂ := by
          have hm : a ∈ t₂.filter (fun x => decide (x.number = a.number)) := by
            rw [← hA]; exact List.mem_cons_self _ _
          exact (List.mem_filter.mp hm).1
        have hba : b.number ≤ a.number := h₂.1 a haT2
        have hB := hf b.number
        rw [List.filter_cons_of_neg (by simp; exact hne),
          List.filter_cons_of_pos (by simp)] at hB
        have hbT1 : b ∈ t₁ := by
          have hm : b ∈ t₁.filter (fun x => decide (x.number = b.number)) := by
            rw [hB]; exact List.mem_cons_self _ _
          exact (List.mem_filter.mp hm).1
        have hab' : a.number ≤ b.number := h₁.1 b hbT1
        omega
      have hA := hf a.number
      rw [List.filter_cons_of_pos (by simp),
        List.filter_cons_of_pos (by simp [hab.symm])] at hA
      injection hA with hhead htail
      subst hhead
      have htails : t₁ = t₂ := by
        apply ih t₂ h₁.2 h₂.2
        intro k
        by_cases hk : a.number = k
        · have h := hf k
          rw [List.filter_cons_of_pos (by simp [hk]),
            List.filter_cons_of_pos (by simp [hk])] at h
          injection h
        · have h := hf k
          rw [List.filter_cons_of_neg (by simp [hk]),
            List.filter_cons_of_neg (by simp [hk])] at h
          exact h
      rw [htails]

end Iot

namespace Iot

set_option maxHeartbeats 2000000 in
/-- Encoding a sorted, in-range instance list from `current` and decoding
the resulting bytes from the same `current` appends exactly those
instances, in order, to the target container, with empty payload. -/
theorem encodeLoop_decode (l : List OptionInstance) :
    ∀ (current : Int) (o0 : Options), 0 ≤ current →
      l.Pairwise (fun a b => a.number ≤ b.number) →
      (∀ x ∈ l, current ≤ x.number ∧ x.number ≤ 65803 ∧ x.data.length ≤ 65803) →
      ∃ bs, Options.encodeLoop current l = .ok bs ∧
        ∀ fuel, bs.length ≤ fuel →
          Options.decodeLoop fuel o0 current bs = .ok (l.foldl Options.addOption o0, []) := by
  induction l with
  | nil =>
    intro current o0 _ _ _
    exact ⟨[], rfl, fun fuel _ => by cases fuel <;> rfl⟩
  | cons o os ih =>
    intro current o0 hc hpair hbound
    obtain ⟨hco, ho65, hd65⟩ := hbound o (List.mem_cons_self _ _)
    rw [List.pairwise_cons] at hpair
    obtain ⟨dn, de, hwd, hdn0, hdn14, hrd⟩ :=
      write_read_inverse (o.number - current) (by omega) (by omega)
    have hlen0 : (0 : Int) ≤ Int.ofNat o.length := by
      simp only [Int.ofNat_eq_natCast]; omega
    have hlen65 : Int.ofNat o.length ≤ 65803 := by
      have : o.length = o.data.length := rfl
      simp only [Int.ofNat_eq_natCast, this]; omega
    obtain ⟨ln, le, hwl, hln0, hln14, hrl⟩ :=
      write_read_inverse (Int.ofNat o.length) hlen0 hlen65
    obtain ⟨bs', henc', hdec'⟩ :=
      ih o.number (Options.addOption o0 o) (by omega) hpair.2
        (fun x hx =>
          ⟨hpair.1 x hx, (hbound x (List.mem_cons_of_mem _ hx)).2.1,
            (hbound x (List.mem_cons_of_mem _ hx)).2.2⟩)
    refine ⟨(dn.toNat % 16 * 16 + ln.toNat % 16) :: (de ++ le ++ o.encode ++ bs'), ?_, ?_⟩
    · rw [Options.encodeLoop]
      simp only [hwd, hwl, henc']
    · intro fuel hf
      cases fuel with
      | zero => simp at hf
      | succ g =>
        rw [decodeLoop_succ, decodeStep]
        have hdnn : dn.toNat ≤ 14 := by omega
        have hlnn : ln.toNat ≤ 14 := by omega
        have hbyte : ¬(dn.toNat % 16 * 16 + ln.toNat % 16 = 255) := by omega
        rw [if_neg hbyte]
        have hdd : (dn.toNat % 16 * 16 + ln.toNat % 16) / 16 % 16 = dn.toNat := by omega
        have hll : (dn.toNat % 16 * 16 + ln.toNat % 16) % 16 = ln.toNat := by omega
        rw [hdd, hll]
        have hdn' : Int.ofNat dn.toNat = dn := by
          simp only [Int.ofNat_eq_natCast]; omega
        have hln' : Int.ofNat ln.toNat = ln := by
          simp only [Int.ofNat_eq_natCast]; omega
        rw [hdn', hln']
        have hsplit1 : de ++ le ++ o.encode ++ bs' = de ++ (le ++ (o.encode ++ bs')) := by
          simp [List.append_assoc]
        rw [hsplit1, hrd (le ++ (o.encode ++ bs'))]
        simp only [hrl (o.encode ++ bs')]
        have hnum : current + (o.number - current) = o.number := by ring
        have hton : (Int.ofNat o.length).toNat = o.encode.length := rfl
        rw [hton, List.take_left, List.drop_left]
        have hinst : createOption (current + (o.number - current)) o.encode = o := by
          rw [hnum]
          rfl
        rw [hinst, hnum, List.foldl_cons]
        apply hdec' g
        simp only [List.length_cons, List.length_append] at hf ⊢
        omega

/-- C2: container round-trip — for any sequence of in-range
(number, raw-bytes) instances added to a fresh container in any insertion
order, encoding the container and decoding the bytes into a fresh
container reconstructs one whose `optionList()` is identical to the
original's: ascending numbers, and for every number exactly the original
instances in their insertion order. -/
theorem options_roundtrip (pairs : List OptionInstance)
    (hb : ∀ x ∈ pairs, 0 ≤ x.number ∧ x.number ≤ 65803 ∧ x.data.length ≤ 65803) :
    ∃ bs o', (pairs.foldl Options.addOption []).encode = .ok bs ∧
      Options.decode [] bs = .ok (o', []) ∧
      o'.optionList = (pairs.foldl Options.addOption []).optionList ∧
      (o'.optionList).Pairwise (fun a b => a.number ≤ b.number) ∧
      ∀ k, (o'.optionList).filter (fun x => decide (x.number = k)) =
        pairs.filter (fun x => decide (x.number = k)) := by
  have hwf : Options.WF (pairs.foldl Options.addOption []) :=
    WF_foldl_addOption pairs [] ⟨by simp, List.nodup_nil⟩
  have hms : ((pairs.foldl Options.addOption []).optionList).Pairwise
      (fun a b => a.number ≤ b.number) := optionList_pairwise hwf
  have hmf : ∀ k, ((pairs.foldl Options.addOption []).optionList).filter
        (fun x => decide (x.number = k)) =
      pairs.filter (fun x => decide (x.number = k)) := by
    intro k
    rw [filter_optionList hwf k, getOption_foldl_addOption]
    rfl
  have hmem : ∀ x ∈ (pairs.foldl Options.addOption []).optionList, x ∈ pairs := by
    intro x hx
    have h1 : x ∈ ((pairs.foldl Options.addOption []).optionList).filter
        (fun y => decide (y.number = x.number)) :=
      List.mem_filter.mpr ⟨hx, by simp⟩
    rw [hmf x.number] at h1
    exact (List.mem_filter.mp h1).1
  obtain ⟨bs, henc, hdec⟩ :=
    encodeLoop_decode ((pairs.foldl Options.addOption []).optionList) 0 []
      le_rfl hms (fun x hx => ⟨(hb x (hmem x hx)).1, (hb x (hmem x hx)).2.1,
        (hb x (hmem x hx)).2.2⟩)
  have hwf' : Options.WF
      (((pairs.foldl Options.addOption []).optionList).foldl Options.addOption []) :=
    WF_foldl_addOption _ [] ⟨by simp, List.nodup_nil⟩
  have hol : (((pairs.foldl Options.addOption []).optionList).foldl
        Options.addOption []).optionList =
      (pairs.foldl Options.addOption []).optionList := by
    apply eq_of_sorted_filter_eq _ _ (optionList_pairwise hwf') hms
    intro k
    rw [filter_optionList hwf' k, getOption_foldl_addOption, hmf k]
    rfl
  refine ⟨bs, ((pairs.foldl Options.addOption []).optionList).foldl Options.addOption [],
    henc, hdec bs.length le_rfl, hol, ?_, ?_⟩
  · rw [hol]; exact hms
  · intro k; rw [hol]; exact hmf k

/-- C2 counterexample for the unrestricted claim: a container holding a
single instance numbered 65804 has no encoding at all — `encode()` raises
the varint out-of-range error, so no decode of its output can reconstruct
the container. -/
theorem options_roundtrip_counterexample :
    (Options.addOption [] ⟨65804, []⟩).encode = .error "Value out of range." := rfl

/-- Witness for C2 on the insertion sequence number 11 (bytes `[1, 2]`),
number 5 (bytes `[7]`), number 11 again (bytes `[3]`). -/
theorem options_roundtrip_witness :
    ∃ bs o', (([⟨11, [1, 2]⟩, ⟨5, [7]⟩, ⟨11, [3]⟩] : List OptionInstance).foldl
        Options.addOption []).encode = .ok bs ∧
      Options.decode [] bs = .ok (o', []) ∧
      o'.optionList = (([⟨11, [1, 2]⟩, ⟨5, [7]⟩, ⟨11, [3]⟩] : List OptionInstance).foldl
        Options.addOption []).optionList ∧
      (o'.optionList).Pairwise (fun a b => a.number ≤ b.number) ∧
      ∀ k, (o'.optionList).filter (fun x => decide (x.number = k)) =
        ([⟨11, [1, 2]⟩, ⟨5, [7]⟩, ⟨11, [3]⟩] : List OptionInstance).filter
          (fun x => decide (x.number = k)) :=
  options_roundtrip [⟨11, [1, 2]⟩, ⟨5, [7]⟩, ⟨11, [3]⟩] (by decide)

end Iot
